import Mathlib

/-!
# Verification of the layer-version resolution core (`src/index.js`)

Shallow embedding of the `serverless-latest-layer-version` plugin core:

* `regExec` — the anchored pattern
  `^arn:aws:lambda:([^:]+):([^:]+):layer:([^:]+):serverless-latest-layer-version$`.
  A string matches this pattern exactly when splitting it on `":"` yields the
  eight components `["arn","aws","lambda",region,accountId,"layer",layerName,
  "serverless-latest-layer-version"]` with `region`, `accountId`, `layerName`
  nonempty (splitting on `":"` already guarantees they contain no colon), so
  the embedding parses with `String.splitOn`.
* `extractLayerName` — eligibility test and canonical-target derivation
  (lines 110–137 of the source), together with its debug output.
* `processLayers` — the paginated `listLayerVersions` query loop and max-by
  reduction (lines 78–108).  The transport is modelled by the list of pages it
  serves in order; the loop result and the number of issued calls are returned.
* `update` — slot discovery, grouping by canonical target, and write-back
  (lines 34–64).  JavaScript object keys preserve insertion order, so the
  grouping accumulator is an ordered association list.  `Promise.all` runs one
  task per distinct target; the tasks touch pairwise disjoint slots, so any
  interleaving is equivalent to applying every successful group's writes, and
  the overall call fails exactly when some group failed.
* `updateJS` — the same, with the object literal's property read modelled
  faithfully: `layerAssociation[layerName]` consults the prototype chain, so
  an eligible bare target that is an own-property name of `Object.prototype`
  (`toString`, `__proto__`, …) reads a truthy inherited value and
  `listeners.push` throws a TypeError before any query is issued or slot
  written.  `update` is the collision-free path of `updateJS`
  (`updateJS_eq_update`).
-/

deriving instance DecidableEq for Except

/-- A JavaScript value as it may occur in a `layers` array slot. -/
inductive JVal where
  | vStr (s : String)
  | vNum (n : Int)
  | vBool (b : Bool)
  | vNull
  | vUndefined
  | vObj (id : Nat)
deriving DecidableEq, Repr

/-- JavaScript truthiness test `!layer` (restricted to the values of `JVal`;
`NaN` is not modelled). -/
def isFalsy : JVal → Bool
  | .vStr s => s = ""
  | .vNum n => n = 0
  | .vBool b => !b
  | .vNull => true
  | .vUndefined => true
  | .vObj _ => false

/-- Whether a `JVal` is a string (`typeof layer === 'string'`). -/
def isStringVal : JVal → Bool
  | .vStr _ => true
  | _ => false

/-- The named capture groups produced by `reg.exec`.  The JavaScript code also
destructures a `layerVersion` field from `tokens.groups`; the regular
expression defines no group of that name, so that field is always
`undefined`, modelled as `Option String` that `regExec` always sets to
`none`. -/
structure RegGroups where
  region : String
  accountId : String
  layerName : String
  layerVersion : Option String
deriving DecidableEq, Repr

/-- The literal version sentinel required by the pattern. -/
def versionSentinel : String := "serverless-latest-layer-version"

/-- Split a character list at every occurrence of `c`; the components, in
order, never contain `c`, and splitting `"a::b"` style runs yields empty
components, exactly as `String.prototype.split` / `String.splitOn` do. -/
def splitOnChar (c : Char) : List Char → List (List Char)
  | [] => [[]]
  | x :: xs =>
      let r := splitOnChar c xs
      if x = c then [] :: r
      else
        match r with
        | [] => [[x]]
        | y :: ys => (x :: y) :: ys

/-- Split a string on `':'`. -/
def splitColons (s : String) : List String :=
  (splitOnChar ':' s.data).map String.mk

/-- `reg.exec` for
`^arn:aws:lambda:([^:]+):([^:]+):layer:([^:]+):serverless-latest-layer-version$`
(named groups `region`, `accountId`, `layerName`).  A string matches this
anchored pattern iff its `':'`-split is the eight-component list below, with
the three captured components nonempty (being split components, they are
automatically colon-free, as `[^:]+` demands, and the fixed literal
components pin the rest of the shape). -/
def regExec (s : String) : Option RegGroups :=
  match splitColons s with
  | [c1, c2, c3, region, accountId, c6, layerName, v] =>
      if c1 = "arn" ∧ c2 = "aws" ∧ c3 = "lambda" ∧ c6 = "layer" ∧ v = versionSentinel ∧
          region ≠ "" ∧ accountId ≠ "" ∧ layerName ≠ "" then
        some ⟨region, accountId, layerName, none⟩
      else none
  | _ => none

/-- Models the JavaScript test `layerVersion === parseInt(layerVersion)`.
`parseInt` always returns a number (possibly `NaN`), and strict equality
between the left operand — a string or `undefined` — and a number or `NaN`
is always false in JavaScript, so this test never succeeds. -/
def versionIsExplicitNumber (_layerVersion : Option String) : Bool := false

/-- Lines 131–136: substitute the ambient region for a `?` region and rebuild
the canonical resolution target, or return the bare layer name when the
account id is `?`. -/
def canonicalTarget (ambientRegion : String) (g : RegGroups) : String :=
  let region := if g.region = "?" then ambientRegion else g.region
  if g.accountId = "?" then g.layerName
  else "arn:aws:lambda:" ++ region ++ ":" ++ g.accountId ++ ":layer:" ++ g.layerName

/-- `extractLayerName` (lines 110–137): returns the canonical resolution
target when the reference is eligible, `none` otherwise, paired with the
debug messages written along the way. -/
def extractLayerName (ambientRegion : String) (layer : JVal) : Option String × List String :=
  if isFalsy layer then (none, [])
  else
    match layer with
    | .vStr s =>
        match regExec s with
        | none => (none, ["Skipping layer " ++ s ++ " as it does not match regexp"])
        | some g =>
            if g.layerVersion = some "?" then
              (some (canonicalTarget ambientRegion g), [])
            else if versionIsExplicitNumber g.layerVersion then
              (none, ["Skipping layer " ++ s ++ " as it has a clearly specified layer version."])
            else
              (some (canonicalTarget ambientRegion g), [])
    | v => (none, ["Skipping layer as its not a string: " ++ reprStr v])

/-- One known version of a layer, as returned by `listLayerVersions`. -/
structure VersionRecord where
  Version : Int
  LayerVersionArn : String
deriving DecidableEq, Repr

/-- One page of the paginated `listLayerVersions` response. -/
structure Page where
  LayerVersions : List VersionRecord
  NextMarker : Option String
deriving DecidableEq, Repr

/-- JavaScript truthiness of `result.NextMarker` (a string or absent):
truthy iff present and nonempty. -/
def truthyMarker : Option String → Bool
  | none => false
  | some s => s ≠ ""

/-- The `for (const version of result.LayerVersions)` body (lines 89–94):
a version overrides the current best unless the current best's `Version`
is strictly greater. -/
def foldVersions : Option VersionRecord → List VersionRecord → Option VersionRecord
  | latest, [] => latest
  | latest, v :: vs =>
      match latest with
      | some l =>
          if l.Version > v.Version then foldVersions (some l) vs
          else foldVersions (some v) vs
      | none => foldVersions (some v) vs

/-- The `do … while (marker)` pagination loop (lines 82–96) run against the
sequence of pages the transport serves, returning the final best record and
the number of `listLayerVersions` calls issued.  Each call consumes the next
page; after a page whose `NextMarker` is falsy the loop stops.  (If the
transport list runs out while a truthy marker is pending, the model simply
stops: the claims below never depend on that case.) -/
def pageLoop : List Page → Option VersionRecord → Option VersionRecord × Nat
  | [], latest => (latest, 0)
  | p :: rest, latest =>
      let latest' := foldVersions latest p.LayerVersions
      if truthyMarker p.NextMarker then
        let r := pageLoop rest latest'
        (r.1, r.2 + 1)
      else (latest', 1)

/-- `processLayers` (lines 78–108) up to the listener notifications: resolve
the latest version of `layerName` from the served pages; zero accumulated
versions is the error path of line 99.  Returns the resolved ARN or the error
message, and the number of query calls issued. -/
def processLayers (layerName : String) (pages : List Page) : Except String String × Nat :=
  let r := pageLoop pages none
  match r.1 with
  | none => (.error ("Lambda layer " ++ layerName ++ " has no version available."), r.2)
  | some v => (.ok v.LayerVersionArn, r.2)

/-- One entry of the `layersList` iterated by `update`: either an array of
candidate references, or any non-array value (absent / `null` / malformed),
which line 38's `Array.isArray` check skips. -/
inductive LayersEntry where
  | arr (xs : List JVal)
  | notArr (v : JVal)
deriving DecidableEq, Repr

/-- A writable location inside the configuration: entry `outer` of the
`layersList`, index `inner` of that entry's array.  The JavaScript closure
`(newLayer) => \x7b layers[index] = newLayer \x7d` is exactly a write to
this location. -/
structure Slot where
  outer : Nat
  inner : Nat
deriving DecidableEq, Repr

/-- The eligible slots contributed by one array, scanned from index `i`
(the `layers.forEach` body at lines 41–57, restricted to slot discovery):
each element whose `extractLayerName` is non-`none` yields one slot paired
with its canonical target. -/
def arrEligible (ambientRegion : String) (o : Nat) : Nat → List JVal → List (Slot × String)
  | _, [] => []
  | i, v :: vs =>
      (match (extractLayerName ambientRegion v).1 with
       | some name => [(⟨o, i⟩, name)]
       | none => []) ++ arrEligible ambientRegion o (i + 1) vs

/-- Eligible slots of the whole `layersList`, entries numbered from `o`
(the `for (const layers of layersList)` loop at lines 37–58). -/
def eligibleSlotsAux (ambientRegion : String) : Nat → List LayersEntry → List (Slot × String)
  | _, [] => []
  | o, e :: rest =>
      (match e with
       | .arr xs => arrEligible ambientRegion o 0 xs
       | .notArr _ => []) ++ eligibleSlotsAux ambientRegion (o + 1) rest

/-- All eligible `(slot, canonical target)` pairs, in discovery order. -/
def eligibleSlots (ambientRegion : String) (config : List LayersEntry) : List (Slot × String) :=
  eligibleSlotsAux ambientRegion 0 config

/-- The own-property part of the listener registration at lines 50–55:
append the slot to an existing key's list, or create a new key at the end
(JavaScript objects preserve string-key insertion order).  This is the step
taken when the property read found an own key or `undefined`; the read's
prototype-chain fallback — which makes the source throw on bare targets such
as `toString` — is added on top by `addSlotJS`/`buildAssocJS` below. -/
def addSlot (assoc : List (String × List Slot)) (name : String) (s : Slot) :
    List (String × List Slot) :=
  match assoc with
  | [] => [(name, [s])]
  | (n, ss) :: rest =>
      if n = name then (n, ss ++ [s]) :: rest
      else (n, ss) :: addSlot rest name s

/-- The `layerAssociation` mapping built by `update` (lines 35–58):
canonical target → its slots, in discovery order. -/
def layerAssociation (ambientRegion : String) (config : List LayersEntry) :
    List (String × List Slot) :=
  (eligibleSlots ambientRegion config).foldl (fun a p => addSlot a p.2 p.1) []

/-- Read the value currently held by a slot. -/
def readSlot (config : List LayersEntry) (s : Slot) : Option JVal :=
  match config[s.outer]? with
  | some (.arr xs) => xs[s.inner]?
  | _ => none

/-- Execute one listener: `layers[index] = newLayer` (line 48). -/
def writeSlot (config : List LayersEntry) (s : Slot) (arn : String) : List LayersEntry :=
  match config[s.outer]? with
  | some (.arr xs) => config.set s.outer (.arr (xs.set s.inner (.vStr arn)))
  | _ => config

/-- The listener notifications performed across all groups (lines 105–107,
one `processLayers` task per association entry): each group whose resolution
succeeded contributes one write per slot, carrying the group's resolved ARN.
`Promise.all` does not cancel sibling tasks, so every successful group's
writes happen even when another group fails. -/
def groupWrites (pagesFor : String → List Page) (assoc : List (String × List Slot)) :
    List (Slot × String) :=
  (assoc.map (fun g =>
    match (processLayers g.1 (pagesFor g.1)).1 with
    | .ok arn => g.2.map (fun s => (s, arn))
    | .error _ => [])).flatten

/-- The errors raised by the per-group tasks; `Promise.all` rejects iff this
list is nonempty. -/
def groupErrors (pagesFor : String → List Page) (assoc : List (String × List Slot)) :
    List String :=
  assoc.filterMap (fun g =>
    match (processLayers g.1 (pagesFor g.1)).1 with
    | .ok _ => none
    | .error e => some e)

/-- Observable outcome of one `update` run: the final configuration, the
targets queried (one `processLayers` call sequence each, in association
order), the slot writes performed, and the task errors. -/
structure UpdateResult where
  config : List LayersEntry
  queried : List String
  writes : List (Slot × String)
  errors : List String
deriving DecidableEq, Repr

/-- `update` (lines 34–64) on inputs where the grouping loop completes:
build the association, run one resolution task per distinct target, apply
every successful group's writes.  The tasks write pairwise disjoint slots,
so the concurrent fan-out is equivalent to this sequential application;
`errors ≠ []` is the rejection of the awaited `Promise.all`.  This is the
non-crashing path of the faithful `updateJS` below, which also models the
TypeError the source throws when an eligible target collides with an
`Object.prototype` property name; the two agree exactly on collision-free
inputs (`updateJS_eq_update`). -/
def update (ambientRegion : String) (pagesFor : String → List Page)
    (config : List LayersEntry) : UpdateResult :=
  let assoc := layerAssociation ambientRegion config
  let ws := groupWrites pagesFor assoc
  { config := ws.foldl (fun c p => writeSlot c p.1 p.2) config
    queried := assoc.map Prod.fst
    writes := ws
    errors := groupErrors pagesFor assoc }

/-- The own property names of `Object.prototype`.  `layerAssociation` is a
plain object literal, so the property read `layerAssociation[layerName]` at
line 50 falls back to the prototype chain: for any of these names that is
not yet an own key, the read returns the inherited member (a function, or
`Object.prototype` itself for `__proto__`), which is truthy. -/
def protoKeys : List String :=
  ["constructor", "__defineGetter__", "__defineSetter__", "hasOwnProperty",
   "__lookupGetter__", "__lookupSetter__", "isPrototypeOf",
   "propertyIsEnumerable", "toString", "valueOf", "__proto__",
   "toLocaleString"]

/-- One step of the grouping loop (lines 50–55) with the object literal's
full property-read semantics: if `name` is an own key, the slot is appended
to its listeners and if the read is `undefined` a new own key is created
(both are `addSlot`); if `name` is instead inherited from
`Object.prototype`, the read is truthy but not an array, so
`listeners.push(listener)` throws a TypeError, modelled as `none`. -/
def addSlotJS (assoc : List (String × List Slot)) (name : String) (s : Slot) :
    Option (List (String × List Slot)) :=
  if name ∈ assoc.map Prod.fst then some (addSlot assoc name s)
  else if name ∈ protoKeys then none
  else some (addSlot assoc name s)

/-- The grouping loop of `update` run over the discovered slots with the
prototype-chain read: `none` models the TypeError propagating out of the
loop, aborting `update` before any query is issued or any slot written. -/
def buildAssocJS : List (Slot × String) → List (String × List Slot) →
    Option (List (String × List Slot))
  | [], assoc => some assoc
  | p :: rest, assoc =>
      match addSlotJS assoc p.2 p.1 with
      | none => none
      | some assoc' => buildAssocJS rest assoc'

/-- `update` (lines 34–64) with the object literal's property reads modelled
faithfully: when the grouping loop throws (an eligible target collides with
an `Object.prototype` property name), the async function's promise rejects
with the TypeError, zero queries have been issued and the configuration is
untouched; otherwise the behaviour is exactly `update`'s fan-out over the
built association (`updateJS_eq_update`). -/
def updateJS (ambientRegion : String) (pagesFor : String → List Page)
    (config : List LayersEntry) : UpdateResult :=
  match buildAssocJS (eligibleSlots ambientRegion config) [] with
  | none =>
      { config := config
        queried := []
        writes := []
        errors := ["TypeError: listeners.push is not a function"] }
  | some assoc =>
      { config := (groupWrites pagesFor assoc).foldl (fun c p => writeSlot c p.1 p.2) config
        queried := assoc.map Prod.fst
        writes := groupWrites pagesFor assoc
        errors := groupErrors pagesFor assoc }

/-! ## Matcher lemmas -/

/-- The empty string does not match the pattern (its split is `[""]`). -/
theorem regExec_empty_eq_none : regExec "" = none := by decide

/-- A successful match pins the split of the input to the eight-component
shape of the pattern, with nonempty captured components, the literal version
sentinel as the eighth component, and no `layerVersion` group. -/
theorem regExec_eq_some {s : String} {g : RegGroups} (h : regExec s = some g) :
    splitColons s =
      ["arn", "aws", "lambda", g.region, g.accountId, "layer", g.layerName, versionSentinel] ∧
    g.region ≠ "" ∧ g.accountId ≠ "" ∧ g.layerName ≠ "" ∧ g.layerVersion = none := by
  unfold regExec at h
  split at h
  case _ c1 c2 c3 region accountId c6 layerName v heq =>
    split at h
    case isTrue hc =>
      obtain ⟨h1, h2, h3, h6, hv, hr, ha, hn⟩ := hc
      cases h
      subst h1; subst h2; subst h3; subst h6; subst hv
      exact ⟨heq, hr, ha, hn, rfl⟩
    case isFalse => cases h
  case _ => cases h

/-- Strings matched by the pattern are nonempty. -/
theorem regExec_ne_empty {s : String} {g : RegGroups} (h : regExec s = some g) : s ≠ "" := by
  intro e
  subst e
  rw [regExec_empty_eq_none] at h
  cases h

/-- On a matched string, `extractLayerName` takes neither version branch
(the `layerVersion` group does not exist) and returns the canonical target
with no debug output. -/
theorem extractLayerName_matched (amb : String) {s : String} {g : RegGroups}
    (h : regExec s = some g) :
    extractLayerName amb (.vStr s) = (some (canonicalTarget amb g), []) := by
  have hne : s ≠ "" := regExec_ne_empty h
  have hv : g.layerVersion = none := (regExec_eq_some h).2.2.2.2
  simp [extractLayerName, isFalsy, hne, h, hv, versionIsExplicitNumber]

/-- A string whose eighth colon-separated component is a nonempty all-digit
version (an explicitly versioned reference) in the otherwise correct shape. -/
def hasExplicitNumericVersion (s : String) : Prop :=
  ∃ r a n v, splitColons s = ["arn", "aws", "lambda", r, a, "layer", n, v] ∧
    v ≠ "" ∧ v.data.all Char.isDigit = true

/-- An explicitly versioned reference does not match the pattern: its version
component is numeric, and the sentinel contains non-digit characters. -/
theorem regExec_numeric_eq_none {s : String} (h : hasExplicitNumericVersion s) :
    regExec s = none := by
  obtain ⟨r, a, n, v, hsplit, hne, hdig⟩ := h
  have hv : v ≠ versionSentinel := by
    intro e
    subst e
    revert hdig
    decide
  unfold regExec
  rw [hsplit]
  simp [hv]

/-! ## Resolver lemmas -/

/-- Merge two candidate "best so far" records the way the loop body does:
the right (later) record wins unless the left one is strictly greater. -/
def mergeBest : Option VersionRecord → Option VersionRecord → Option VersionRecord
  | none, r => r
  | some c, none => some c
  | some c, some r => if c.Version > r.Version then some c else some r

/-- Specification-side reduction: the element of the list with the maximal
`Version`, keeping the **last** occurrence when several elements attain the
maximum. -/
def lastArgmax : List VersionRecord → Option VersionRecord
  | [] => none
  | v :: vs =>
      match lastArgmax vs with
      | none => some v
      | some r => if v.Version > r.Version then some v else some r

theorem foldVersions_cons (c : Option VersionRecord) (v : VersionRecord)
    (vs : List VersionRecord) :
    foldVersions c (v :: vs) = foldVersions (mergeBest c (some v)) vs := by
  cases c with
  | none => rfl
  | some l =>
      by_cases h : l.Version > v.Version <;> simp [foldVersions, mergeBest, h]

theorem mergeBest_assoc (a b c : Option VersionRecord) :
    mergeBest (mergeBest a b) c = mergeBest a (mergeBest b c) := by
  cases a with
  | none => rfl
  | some x =>
      cases b with
      | none => rfl
      | some y =>
          cases c with
          | none =>
              by_cases h1 : x.Version > y.Version <;> simp [mergeBest, h1]
          | some z =>
              by_cases h1 : x.Version > y.Version <;>
                by_cases h2 : y.Version > z.Version <;>
                  by_cases h3 : x.Version > z.Version <;>
                    simp [mergeBest, h1, h2, h3] <;>
                      first
                      | rfl
                      | omega

theorem lastArgmax_cons (v : VersionRecord) (vs : List VersionRecord) :
    lastArgmax (v :: vs) = mergeBest (some v) (lastArgmax vs) := by
  cases h : lastArgmax vs <;> simp [lastArgmax, mergeBest, h]

theorem foldVersions_eq_mergeBest (c : Option VersionRecord) (l : List VersionRecord) :
    foldVersions c l = mergeBest c (lastArgmax l) := by
  induction l generalizing c with
  | nil => cases c <;> rfl
  | cons v vs ih => rw [foldVersions_cons, ih, mergeBest_assoc, ← lastArgmax_cons]

theorem foldVersions_append (c : Option VersionRecord) (l1 l2 : List VersionRecord) :
    foldVersions c (l1 ++ l2) = foldVersions (foldVersions c l1) l2 := by
  induction l1 generalizing c with
  | nil => rfl
  | cons v vs ih => rw [List.cons_append, foldVersions_cons, ih, foldVersions_cons]

theorem lastArgmax_cons_isSome (v : VersionRecord) (vs : List VersionRecord) :
    (lastArgmax (v :: vs)).isSome := by
  rw [lastArgmax_cons]
  cases h : lastArgmax vs with
  | none => simp [mergeBest]
  | some r => by_cases hc : v.Version > r.Version <;> simp [mergeBest, hc]

theorem lastArgmax_eq_none {l : List VersionRecord} : lastArgmax l = none ↔ l = [] := by
  cases l with
  | nil => simp [lastArgmax]
  | cons v vs =>
      constructor
      · intro h
        have := lastArgmax_cons_isSome v vs
        rw [h] at this
        simp at this
      · intro h
        cases h

theorem lastArgmax_mem {l : List VersionRecord} {r : VersionRecord}
    (h : lastArgmax l = some r) : r ∈ l := by
  induction l with
  | nil => cases h
  | cons v vs ih =>
      rw [lastArgmax_cons] at h
      cases h' : lastArgmax vs with
      | none =>
          rw [h'] at h
          simp only [mergeBest] at h
          cases h
          exact List.mem_cons_self _ _
      | some r' =>
          rw [h'] at h
          simp only [mergeBest] at h
          by_cases hc : v.Version > r'.Version
          · rw [if_pos hc] at h
            cases h
            exact List.mem_cons_self _ _
          · rw [if_neg hc] at h
            cases h
            exact List.mem_cons_of_mem _ (ih h')

theorem lastArgmax_ub : ∀ {l : List VersionRecord} {r : VersionRecord},
    lastArgmax l = some r → ∀ v ∈ l, v.Version ≤ r.Version := by
  intro l
  induction l with
  | nil => intro r h; cases h
  | cons v vs ih =>
      intro r h w hw
      rw [lastArgmax_cons] at h
      cases h' : lastArgmax vs with
      | none =>
          have hvs : vs = [] := lastArgmax_eq_none.mp h'
          subst hvs
          rw [h'] at h
          simp only [mergeBest] at h
          cases h
          simp only [List.mem_singleton] at hw
          subst hw
          exact le_refl _
      | some r' =>
          rw [h'] at h
          simp only [mergeBest] at h
          by_cases hc : v.Version > r'.Version
          · rw [if_pos hc] at h
            cases h
            rcases List.mem_cons.mp hw with hw | hw
            · subst hw; exact le_refl _
            · have := ih h' w hw
              omega
          · rw [if_neg hc] at h
            cases h
            rcases List.mem_cons.mp hw with hw | hw
            · subst hw; omega
            · exact ih h' w hw

theorem lastArgmax_strict_after : ∀ {l : List VersionRecord} {r : VersionRecord},
    lastArgmax l = some r →
    ∃ k, ∃ hk : k < l.length, l.get ⟨k, hk⟩ = r ∧
      ∀ j, ∀ hj : j < l.length, k < j → (l.get ⟨j, hj⟩).Version < r.Version := by
  intro l
  induction l with
  | nil => intro r h; cases h
  | cons v vs ih =>
      intro r h
      rw [lastArgmax_cons] at h
      cases h' : lastArgmax vs with
      | none =>
          have hvs : vs = [] := lastArgmax_eq_none.mp h'
          subst hvs
          rw [h'] at h
          simp only [mergeBest] at h
          cases h
          refine ⟨0, by simp, rfl, ?_⟩
          intro j hj hlt
          simp only [List.length_singleton] at hj
          omega
      | some r' =>
          rw [h'] at h
          simp only [mergeBest] at h
          by_cases hc : v.Version > r'.Version
          · rw [if_pos hc] at h
            cases h
            refine ⟨0, by simp, rfl, ?_⟩
            intro j hj hlt
            cases j with
            | zero => omega
            | succ m =>
                have hm : m < vs.length := by
                  simp only [List.length_cons] at hj
                  omega
                have he : ((v :: vs).get ⟨m + 1, hj⟩) = vs.get ⟨m, hm⟩ := rfl
                rw [he]
                have := lastArgmax_ub h' (vs.get ⟨m, hm⟩) (vs.get_mem m hm)
                omega
          · rw [if_neg hc] at h
            cases h
            obtain ⟨k, hk, hget, hstrict⟩ := ih h'
            have hk1 : k + 1 < (v :: vs).length := by
              simp only [List.length_cons]
              omega
            refine ⟨k + 1, hk1, hget, ?_⟩
            intro j hj hlt
            cases j with
            | zero => omega
            | succ m =>
                have hm : m < vs.length := by
                  simp only [List.length_cons] at hj
                  omega
                have he : ((v :: vs).get ⟨m + 1, hj⟩) = vs.get ⟨m, hm⟩ := rfl
                rw [he]
                exact hstrict m hm (by omega)

/-- The page chain shape of claim C4: every page announces a continuation
marker except the last. -/
def goodChain : List Page → Bool
  | [] => false
  | [p] => !truthyMarker p.NextMarker
  | p :: rest => truthyMarker p.NextMarker && goodChain rest

/-- All version records served across the pages, in order. -/
def allVersions (pages : List Page) : List VersionRecord :=
  (pages.map Page.LayerVersions).flatten

theorem pageLoop_cons_truthy {p : Page} (h : truthyMarker p.NextMarker = true)
    (rest : List Page) (c : Option VersionRecord) :
    pageLoop (p :: rest) c =
      ((pageLoop rest (foldVersions c p.LayerVersions)).1,
        (pageLoop rest (foldVersions c p.LayerVersions)).2 + 1) := by
  simp [pageLoop, h]

theorem pageLoop_cons_falsy {p : Page} (h : truthyMarker p.NextMarker = false)
    (rest : List Page) (c : Option VersionRecord) :
    pageLoop (p :: rest) c = (foldVersions c p.LayerVersions, 1) := by
  simp [pageLoop, h]

/-- On a well-formed chain the loop visits every page: it folds all served
versions and issues exactly one call per page. -/
theorem pageLoop_goodChain {pages : List Page} (h : goodChain pages = true) :
    ∀ c, pageLoop pages c = (foldVersions c (allVersions pages), pages.length) := by
  induction pages with
  | nil => cases h
  | cons p rest ih =>
      intro c
      cases rest with
      | nil =>
          have hm : truthyMarker p.NextMarker = false := by
            simpa [goodChain] using h
          rw [pageLoop_cons_falsy hm]
          simp [allVersions]
      | cons q rest' =>
          have hm : truthyMarker p.NextMarker = true ∧ goodChain (q :: rest') = true := by
            simpa [goodChain, Bool.and_eq_true] using h
          rw [pageLoop_cons_truthy hm.1, ih hm.2]
          simp [allVersions, foldVersions_append]

/-- If every served page is empty, the loop never changes the accumulator. -/
theorem pageLoop_empty_versions {pages : List Page}
    (h : ∀ p ∈ pages, p.LayerVersions = []) :
    ∀ c, (pageLoop pages c).1 = c := by
  induction pages with
  | nil => intro c; rfl
  | cons p rest ih =>
      intro c
      have hp : p.LayerVersions = [] := h p (List.mem_cons_self _ _)
      have hrest := ih (fun q hq => h q (List.mem_cons_of_mem _ hq))
      by_cases hm : truthyMarker p.NextMarker <;>
        simp [pageLoop, hp, hm, foldVersions, hrest]

/-! ## Extraction lemmas -/

/-- Every pair produced by the array scan records a slot whose position holds
a value the Matcher maps to exactly that target. -/
theorem arrEligible_spec {amb : String} {o : Nat} :
    ∀ {i : Nat} {xs : List JVal} {p : Slot × String}, p ∈ arrEligible amb o i xs →
      ∃ j, ∃ hj : j < xs.length, p.1 = ⟨o, i + j⟩ ∧
        (extractLayerName amb (xs.get ⟨j, hj⟩)).1 = some p.2 := by
  intro i xs
  induction xs generalizing i with
  | nil => intro p h; simp [arrEligible] at h
  | cons v vs ih =>
      intro p h
      cases hx : (extractLayerName amb v).1 with
      | none =>
          rw [arrEligible, hx, List.nil_append] at h
          obtain ⟨j, hj, h1, h2⟩ := ih h
          have hj' : j + 1 < (v :: vs).length := by simpa using hj
          refine ⟨j + 1, hj', ?_, h2⟩
          rw [h1]
          have : i + 1 + j = i + (j + 1) := by omega
          rw [this]
      | some n =>
          rw [arrEligible, hx, List.singleton_append] at h
          rcases List.mem_cons.mp h with h | h
          · subst h
            exact ⟨0, by simp, by simp, by simpa using hx⟩
          · obtain ⟨j, hj, h1, h2⟩ := ih h
            have hj' : j + 1 < (v :: vs).length := by simpa using hj
            refine ⟨j + 1, hj', ?_, h2⟩
            rw [h1]
            have : i + 1 + j = i + (j + 1) := by omega
            rw [this]

/-- Bounds on the positions recorded by the array scan. -/
theorem arrEligible_bounds {amb : String} {o i : Nat} {xs : List JVal} {p : Slot × String}
    (h : p ∈ arrEligible amb o i xs) : p.1.outer = o ∧ i ≤ p.1.inner := by
  obtain ⟨j, hj, h1, _⟩ := arrEligible_spec h
  rw [h1]
  exact ⟨rfl, Nat.le_add_right i j⟩

/-- Distinct array positions yield distinct slots. -/
theorem nodup_fst_arrEligible (amb : String) (o : Nat) :
    ∀ (i : Nat) (xs : List JVal), ((arrEligible amb o i xs).map Prod.fst).Nodup := by
  intro i xs
  induction xs generalizing i with
  | nil => simp [arrEligible]
  | cons v vs ih =>
      cases hx : (extractLayerName amb v).1 with
      | none => simpa [arrEligible, hx] using ih (i + 1)
      | some n =>
          rw [arrEligible, hx, List.singleton_append, List.map_cons, List.nodup_cons]
          refine ⟨?_, ih (i + 1)⟩
          intro hmem
          obtain ⟨q, hq, he⟩ := List.mem_map.mp hmem
          have hb := (arrEligible_bounds hq).2
          rw [he] at hb
          have hb' : i + 1 ≤ i := hb
          omega

/-- Every pair produced by the entry scan points into a real array entry of
the configuration, at a position holding a value the Matcher maps to that
pair's target. -/
theorem eligibleSlotsAux_spec {amb : String} :
    ∀ {o : Nat} {cfg : List LayersEntry} {p : Slot × String},
      p ∈ eligibleSlotsAux amb o cfg →
      ∃ k, ∃ hk : k < cfg.length, ∃ xs, cfg.get ⟨k, hk⟩ = .arr xs ∧ p.1.outer = o + k ∧
        ∃ hj : p.1.inner < xs.length,
          (extractLayerName amb (xs.get ⟨p.1.inner, hj⟩)).1 = some p.2 := by
  intro o cfg
  induction cfg generalizing o with
  | nil => intro p h; simp [eligibleSlotsAux] at h
  | cons e rest ih =>
      intro p h
      cases e with
      | arr xs =>
          have h' : p ∈ arrEligible amb o 0 xs ++ eligibleSlotsAux amb (o + 1) rest := h
          rcases List.mem_append.mp h' with h2 | h2
          · obtain ⟨j, hj, h1, hx⟩ := arrEligible_spec h2
            refine ⟨0, by simp, xs, rfl, ?_, ?_⟩
            · rw [h1]
              show o = o + 0
              omega
            · have hpi : p.1.inner = j := by
                rw [h1]
                show 0 + j = j
                omega
              rw [hpi]
              exact ⟨hj, hx⟩
          · obtain ⟨k, hk, ys, he, ho, hj, hx⟩ := ih h2
            have hk' : k + 1 < (LayersEntry.arr xs :: rest).length := by simpa using hk
            exact ⟨k + 1, hk', ys, he, by omega, hj, hx⟩
      | notArr v =>
          have h' : p ∈ eligibleSlotsAux amb (o + 1) rest := h
          obtain ⟨k, hk, ys, he, ho, hj, hx⟩ := ih h'
          have hk' : k + 1 < (LayersEntry.notArr v :: rest).length := by simpa using hk
          exact ⟨k + 1, hk', ys, he, by omega, hj, hx⟩

/-- The entry scan starting at `o` only produces slots at entry `o` or later. -/
theorem eligibleSlotsAux_outer_ge {amb : String} {o : Nat} {cfg : List LayersEntry}
    {p : Slot × String} (h : p ∈ eligibleSlotsAux amb o cfg) : o ≤ p.1.outer := by
  obtain ⟨k, _, _, _, ho, _⟩ := eligibleSlotsAux_spec h
  omega

/-- All discovered slots are pairwise distinct locations. -/
theorem nodup_fst_eligibleSlotsAux (amb : String) :
    ∀ (o : Nat) (cfg : List LayersEntry), ((eligibleSlotsAux amb o cfg).map Prod.fst).Nodup := by
  intro o cfg
  induction cfg generalizing o with
  | nil => simp [eligibleSlotsAux]
  | cons e rest ih =>
      cases e with
      | arr xs =>
          have he : eligibleSlotsAux amb o (LayersEntry.arr xs :: rest) =
              arrEligible amb o 0 xs ++ eligibleSlotsAux amb (o + 1) rest := rfl
          rw [he, List.map_append]
          apply List.Nodup.append
          · exact nodup_fst_arrEligible amb o 0 xs
          · exact ih (o + 1)
          · intro s hs hs'
            obtain ⟨q, hq, hqe⟩ := List.mem_map.mp hs
            obtain ⟨q', hq', hqe'⟩ := List.mem_map.mp hs'
            have h1 := (arrEligible_bounds hq).1
            have h2 := eligibleSlotsAux_outer_ge hq'
            rw [hqe] at h1
            rw [hqe'] at h2
            omega
      | notArr v =>
          have he : eligibleSlotsAux amb o (LayersEntry.notArr v :: rest) =
              eligibleSlotsAux amb (o + 1) rest := rfl
          rw [he]
          exact ih (o + 1)

/-- A slot cannot be discovered under two different targets. -/
theorem eligibleSlots_name_unique {amb : String} {cfg : List LayersEntry} {s : Slot}
    {n m : String} (h1 : (s, n) ∈ eligibleSlots amb cfg) (h2 : (s, m) ∈ eligibleSlots amb cfg) :
    n = m := by
  have hd := nodup_fst_eligibleSlotsAux amb 0 cfg
  have := List.inj_on_of_nodup_map hd h1 h2 rfl
  exact congrArg Prod.snd this

/-- An eligible slot reads back a value the Matcher maps to its target. -/
theorem eligibleSlots_readSlot {amb : String} {cfg : List LayersEntry} {p : Slot × String}
    (h : p ∈ eligibleSlots amb cfg) :
    ∃ v, readSlot cfg p.1 = some v ∧ (extractLayerName amb v).1 = some p.2 := by
  obtain ⟨k, hk, xs, he, ho, hj, h2⟩ := eligibleSlotsAux_spec h
  have ho0 : p.1.outer = k := by omega
  have hc : cfg[p.1.outer]? = some (LayersEntry.arr xs) := by
    rw [ho0, List.getElem?_eq_getElem hk]
    exact congrArg some ((List.get_eq_getElem cfg ⟨k, hk⟩).symm.trans he)
  refine ⟨xs.get ⟨p.1.inner, hj⟩, ?_, h2⟩
  simp only [readSlot, hc]
  rw [List.getElem?_eq_getElem hj]
  exact congrArg some (List.get_eq_getElem xs ⟨p.1.inner, hj⟩).symm

/-- An eligible slot is a valid in-bounds array position. -/
theorem eligibleSlots_valid {amb : String} {cfg : List LayersEntry} {p : Slot × String}
    (h : p ∈ eligibleSlots amb cfg) :
    ∃ xs, cfg[p.1.outer]? = some (.arr xs) ∧ p.1.inner < xs.length := by
  obtain ⟨k, hk, xs, he, ho, hj, _⟩ := eligibleSlotsAux_spec h
  have ho0 : p.1.outer = k := by omega
  refine ⟨xs, ?_, hj⟩
  rw [ho0, List.getElem?_eq_getElem hk]
  exact congrArg some ((List.get_eq_getElem cfg ⟨k, hk⟩).symm.trans he)

/-! ## Association lemmas -/

/-- First-match lookup in the ordered association (JavaScript property read
`layerAssociation[layerName]`, with `[]` standing for `undefined`). -/
def lookupSlots : List (String × List Slot) → String → List Slot
  | [], _ => []
  | (n, ss) :: rest, name => if n = name then ss else lookupSlots rest name

/-- The slots of the flat discovery list carrying a given target, in order. -/
def targetSlots (name : String) (l : List (Slot × String)) : List Slot :=
  l.filterMap (fun p => if p.2 = name then some p.1 else none)

theorem lookupSlots_cons (n : String) (ss : List Slot) (rest : List (String × List Slot))
    (m : String) : lookupSlots ((n, ss) :: rest) m = if n = m then ss else lookupSlots rest m :=
  rfl

theorem addSlot_cons (n : String) (ss : List Slot) (rest : List (String × List Slot))
    (name : String) (s : Slot) :
    addSlot ((n, ss) :: rest) name s =
      if n = name then (n, ss ++ [s]) :: rest else (n, ss) :: addSlot rest name s :=
  rfl

theorem mem_targetSlots {name : String} {l : List (Slot × String)} {s : Slot} :
    s ∈ targetSlots name l ↔ (s, name) ∈ l := by
  rw [targetSlots, List.mem_filterMap]
  constructor
  · rintro ⟨p, hp, he⟩
    by_cases h : p.2 = name
    · rw [if_pos h] at he
      injection he with he
      have hpe : p = (s, name) := by
        rw [Prod.ext_iff]
        exact ⟨he, h⟩
      rw [← hpe]
      exact hp
    · rw [if_neg h] at he
      cases he
  · intro h
    exact ⟨(s, name), h, by simp⟩

theorem targetSlots_sublist (name : String) (l : List (Slot × String)) :
    List.Sublist (targetSlots name l) (l.map Prod.fst) := by
  induction l with
  | nil => simp [targetSlots]
  | cons p rest ih =>
      rw [targetSlots, List.filterMap_cons, List.map_cons]
      rw [targetSlots] at ih
      by_cases h : p.2 = name
      · rw [if_pos h]
        exact List.Sublist.cons₂ p.1 ih
      · rw [if_neg h]
        exact List.Sublist.cons p.1 ih

theorem lookupSlots_addSlot_self (assoc : List (String × List Slot)) (name : String) (s : Slot) :
    lookupSlots (addSlot assoc name s) name = lookupSlots assoc name ++ [s] := by
  induction assoc with
  | nil =>
      show lookupSlots [(name, [s])] name = [] ++ [s]
      rw [lookupSlots_cons, if_pos rfl, List.nil_append]
  | cons g rest ih =>
      obtain ⟨n, ss⟩ := g
      rw [addSlot_cons]
      by_cases hn : n = name
      · rw [if_pos hn, lookupSlots_cons, if_pos hn, lookupSlots_cons, if_pos hn]
      · rw [if_neg hn, lookupSlots_cons, if_neg hn, lookupSlots_cons, if_neg hn, ih]

theorem lookupSlots_addSlot_ne (assoc : List (String × List Slot)) {name m : String} (s : Slot)
    (h : name ≠ m) : lookupSlots (addSlot assoc name s) m = lookupSlots assoc m := by
  induction assoc with
  | nil =>
      show lookupSlots [(name, [s])] m = lookupSlots [] m
      rw [lookupSlots_cons, if_neg h]
  | cons g rest ih =>
      obtain ⟨n, ss⟩ := g
      rw [addSlot_cons]
      by_cases hn : n = name
      · have hnm : n ≠ m := by rw [hn]; exact h
        rw [if_pos hn, lookupSlots_cons, if_neg hnm, lookupSlots_cons, if_neg hnm]
      · rw [if_neg hn, lookupSlots_cons]
        by_cases hm : n = m
        · rw [if_pos hm, lookupSlots_cons, if_pos hm]
        · rw [if_neg hm, lookupSlots_cons, if_neg hm, ih]

theorem map_fst_addSlot (assoc : List (String × List Slot)) (name : String) (s : Slot) :
    (addSlot assoc name s).map Prod.fst =
      if name ∈ assoc.map Prod.fst then assoc.map Prod.fst
      else assoc.map Prod.fst ++ [name] := by
  induction assoc with
  | nil => simp [addSlot]
  | cons g rest ih =>
      obtain ⟨n, ss⟩ := g
      rw [addSlot_cons]
      by_cases hn : n = name
      · rw [if_pos hn, List.map_cons, List.map_cons]
        have : name ∈ (n, ss).1 :: rest.map Prod.fst := by
          rw [← hn]
          exact List.mem_cons_self _ _
        rw [if_pos (by simpa using this)]
      · rw [if_neg hn, List.map_cons, List.map_cons, ih]
        by_cases hm : name ∈ rest.map Prod.fst
        · rw [if_pos hm, if_pos]
          rw [List.mem_cons]
          exact Or.inr hm
        · rw [if_neg hm, if_neg, List.cons_append]
          rw [List.mem_cons]
          rintro (he | hmm)
          · exact hn he.symm
          · exact hm hmm

theorem mem_map_fst_addSlot {assoc : List (String × List Slot)} {name m : String} {s : Slot} :
    m ∈ (addSlot assoc name s).map Prod.fst ↔ m ∈ assoc.map Prod.fst ∨ m = name := by
  rw [map_fst_addSlot]
  by_cases h : name ∈ assoc.map Prod.fst
  · rw [if_pos h]
    constructor
    · exact Or.inl
    · rintro (hm | hm)
      · exact hm
      · rw [hm]
        exact h
  · rw [if_neg h]
    simp [List.mem_append]

theorem nodup_fst_addSlot {assoc : List (String × List Slot)}
    (h : (assoc.map Prod.fst).Nodup) (name : String) (s : Slot) :
    ((addSlot assoc name s).map Prod.fst).Nodup := by
  rw [map_fst_addSlot]
  by_cases hm : name ∈ assoc.map Prod.fst
  · rw [if_pos hm]
    exact h
  · rw [if_neg hm]
    apply List.Nodup.append h (List.nodup_singleton name)
    intro a ha ha'
    rw [List.mem_singleton] at ha'
    subst ha'
    exact hm ha

theorem targetSlots_cons (name : String) (p : Slot × String) (rest : List (Slot × String)) :
    targetSlots name (p :: rest) =
      if p.2 = name then p.1 :: targetSlots name rest else targetSlots name rest := by
  by_cases h : p.2 = name <;> simp [targetSlots, List.filterMap_cons, h]

/-- Folding the discovery list into the association: lookups accumulate the
slots of each target in discovery order. -/
theorem lookupSlots_foldl (l : List (Slot × String)) :
    ∀ (assoc : List (String × List Slot)) (name : String),
      lookupSlots (l.foldl (fun a p => addSlot a p.2 p.1) assoc) name =
        lookupSlots assoc name ++ targetSlots name l := by
  induction l with
  | nil => intro assoc name; simp [targetSlots]
  | cons p rest ih =>
      intro assoc name
      rw [List.foldl_cons, ih, targetSlots_cons]
      by_cases h : p.2 = name
      · rw [if_pos h, ← h, lookupSlots_addSlot_self, List.append_assoc, List.singleton_append]
      · rw [if_neg h, lookupSlots_addSlot_ne assoc p.1 h]

theorem nodup_fst_foldl (l : List (Slot × String)) :
    ∀ (assoc : List (String × List Slot)), (assoc.map Prod.fst).Nodup →
      ((l.foldl (fun a p => addSlot a p.2 p.1) assoc).map Prod.fst).Nodup := by
  induction l with
  | nil => intro assoc h; exact h
  | cons p rest ih =>
      intro assoc h
      rw [List.foldl_cons]
      exact ih _ (nodup_fst_addSlot h p.2 p.1)

theorem mem_fst_foldl (l : List (Slot × String)) :
    ∀ (assoc : List (String × List Slot)) (m : String),
      m ∈ (l.foldl (fun a p => addSlot a p.2 p.1) assoc).map Prod.fst ↔
        m ∈ assoc.map Prod.fst ∨ m ∈ l.map Prod.snd := by
  induction l with
  | nil => intro assoc m; simp
  | cons p rest ih =>
      intro assoc m
      rw [List.foldl_cons, ih, mem_map_fst_addSlot, List.map_cons, List.mem_cons]
      tauto

/-- In an association with distinct keys, membership determines contents. -/
theorem mem_assoc_eq_lookupSlots :
    ∀ {assoc : List (String × List Slot)}, (assoc.map Prod.fst).Nodup →
      ∀ {n : String} {ss : List Slot}, (n, ss) ∈ assoc → lookupSlots assoc n = ss := by
  intro assoc
  induction assoc with
  | nil => intro _ n ss h; simp at h
  | cons g rest ih =>
      intro hd n ss h
      obtain ⟨m, tt⟩ := g
      rw [List.map_cons, List.nodup_cons] at hd
      rcases List.mem_cons.mp h with h | h
      · rw [Prod.mk.injEq] at h
        rw [lookupSlots_cons, if_pos h.1.symm]
        exact h.2.symm
      · have hne : m ≠ n := by
          intro he
          apply hd.1
          subst he
          exact List.mem_map.mpr ⟨(m, ss), h, rfl⟩
        rw [lookupSlots_cons, if_neg hne]
        exact ih hd.2 h

/-- Every key of an association is a member with its looked-up contents. -/
theorem lookupSlots_mem_assoc :
    ∀ {assoc : List (String × List Slot)} {n : String}, n ∈ assoc.map Prod.fst →
      (n, lookupSlots assoc n) ∈ assoc := by
  intro assoc
  induction assoc with
  | nil => intro n h; simp at h
  | cons g rest ih =>
      intro n h
      obtain ⟨m, tt⟩ := g
      by_cases he : m = n
      · subst he
        rw [lookupSlots_cons, if_pos rfl]
        exact List.mem_cons_self _ _
      · rw [lookupSlots_cons, if_neg he]
        rw [List.map_cons, List.mem_cons] at h
        rcases h with h | h
        · exact absurd h.symm he
        · exact List.mem_cons_of_mem _ (ih h)

/-! ## `layerAssociation` characterization -/

theorem layerAssociation_keys_nodup (amb : String) (cfg : List LayersEntry) :
    ((layerAssociation amb cfg).map Prod.fst).Nodup :=
  nodup_fst_foldl (eligibleSlots amb cfg) [] (by simp)

theorem lookupSlots_layerAssociation (amb : String) (cfg : List LayersEntry) (n : String) :
    lookupSlots (layerAssociation amb cfg) n = targetSlots n (eligibleSlots amb cfg) := by
  rw [layerAssociation, lookupSlots_foldl]
  rfl

/-- A group of the association holds exactly the discovered slots of its
target, in discovery order. -/
theorem mem_layerAssociation {amb : String} {cfg : List LayersEntry} {n : String}
    {ss : List Slot} (h : (n, ss) ∈ layerAssociation amb cfg) :
    ss = targetSlots n (eligibleSlots amb cfg) := by
  rw [← lookupSlots_layerAssociation amb cfg n]
  exact (mem_assoc_eq_lookupSlots (layerAssociation_keys_nodup amb cfg) h).symm

/-- The association has one key per distinct discovered target. -/
theorem mem_keys_layerAssociation {amb : String} {cfg : List LayersEntry} {n : String} :
    n ∈ (layerAssociation amb cfg).map Prod.fst ↔
      ∃ s, (s, n) ∈ eligibleSlots amb cfg := by
  rw [layerAssociation, mem_fst_foldl]
  simp only [List.map_nil, List.not_mem_nil, false_or]
  constructor
  · intro h
    obtain ⟨p, hp, he⟩ := List.mem_map.mp h
    refine ⟨p.1, ?_⟩
    rw [← he]
    simpa using hp
  · rintro ⟨s, hs⟩
    exact List.mem_map.mpr ⟨(s, n), hs, rfl⟩

/-- Slots of a group are pairwise distinct. -/
theorem nodup_mem_layerAssociation {amb : String} {cfg : List LayersEntry} {n : String}
    {ss : List Slot} (h : (n, ss) ∈ layerAssociation amb cfg) : ss.Nodup := by
  rw [mem_layerAssociation h]
  exact List.Nodup.sublist (targetSlots_sublist n (eligibleSlots amb cfg))
    (nodup_fst_eligibleSlotsAux amb 0 cfg)

/-- Distinct groups of the association own disjoint slot sets. -/
theorem disjoint_layerAssociation {amb : String} {cfg : List LayersEntry}
    {n m : String} {ss tt : List Slot} (hn : (n, ss) ∈ layerAssociation amb cfg)
    (hm : (m, tt) ∈ layerAssociation amb cfg) (hne : n ≠ m) :
    ∀ s ∈ ss, s ∉ tt := by
  intro s hs hs'
  rw [mem_layerAssociation hn] at hs
  rw [mem_layerAssociation hm] at hs'
  exact hne (eligibleSlots_name_unique (mem_targetSlots.mp hs) (mem_targetSlots.mp hs'))

/-! ## Slot write lemmas -/

theorem lt_length_of_getElem?_eq_some {α : Type} {l : List α} {n : Nat} {a : α}
    (h : l[n]? = some a) : n < l.length := by
  by_contra hn
  push_neg at hn
  rw [List.getElem?_eq_none hn] at h
  cases h

/-- Writing one slot leaves every other slot's value unchanged. -/
theorem writeSlot_ne {cfg : List LayersEntry} {s t : Slot} (h : s ≠ t) (arn : String) :
    readSlot (writeSlot cfg t arn) s = readSlot cfg s := by
  cases hc : cfg[t.outer]? with
  | none => simp only [writeSlot, hc]
  | some e =>
      cases e with
      | notArr v => simp only [writeSlot, hc]
      | arr xs =>
          simp only [writeSlot, hc]
          have hlt : t.outer < cfg.length := lt_length_of_getElem?_eq_some hc
          by_cases ho : s.outer = t.outer
          · have hi : s.inner ≠ t.inner := by
              intro hi
              apply h
              cases s
              cases t
              simp only at ho hi
              rw [ho, hi]
            simp only [readSlot, ho, List.getElem?_set_eq_of_lt _ hlt, hc]
            exact List.getElem?_set_ne (fun he => hi he.symm)
          · simp only [readSlot,
              List.getElem?_set_ne (fun he : t.outer = s.outer => ho he.symm)]

/-- Writing a valid slot makes it read back the written ARN. -/
theorem writeSlot_hit {cfg : List LayersEntry} {s : Slot} {xs : List JVal}
    (hc : cfg[s.outer]? = some (.arr xs)) (hi : s.inner < xs.length) (arn : String) :
    readSlot (writeSlot cfg s arn) s = some (.vStr arn) := by
  have hlt : s.outer < cfg.length := lt_length_of_getElem?_eq_some hc
  simp only [writeSlot, hc, readSlot, List.getElem?_set_eq_of_lt _ hlt]
  rw [List.getElem?_set_eq_of_lt _ hi]

/-- Writing any slot preserves the validity of every valid slot. -/
theorem writeSlot_preserves_valid {cfg : List LayersEntry} {s : Slot} {xs : List JVal}
    (t : Slot) (arn : String) (hc : cfg[s.outer]? = some (.arr xs)) (hi : s.inner < xs.length) :
    ∃ ys, (writeSlot cfg t arn)[s.outer]? = some (.arr ys) ∧ s.inner < ys.length := by
  cases hct : cfg[t.outer]? with
  | none =>
      refine ⟨xs, ?_, hi⟩
      simp only [writeSlot, hct]
      exact hc
  | some e =>
      cases e with
      | notArr v =>
          refine ⟨xs, ?_, hi⟩
          simp only [writeSlot, hct]
          exact hc
      | arr zs =>
          have hlt : t.outer < cfg.length := lt_length_of_getElem?_eq_some hct
          by_cases ho : s.outer = t.outer
          · have hzs : zs = xs := by
              rw [ho] at hc
              rw [hct] at hc
              injection hc with hc
              injection hc
            refine ⟨zs.set t.inner (.vStr arn), ?_, ?_⟩
            · simp only [writeSlot, hct, ho]
              exact List.getElem?_set_eq_of_lt _ hlt
            · rw [List.length_set, hzs]
              exact hi
          · refine ⟨xs, ?_, hi⟩
            simp only [writeSlot, hct]
            rw [List.getElem?_set_ne (fun he : t.outer = s.outer => ho he.symm)]
            exact hc

/-- A slot not mentioned in a write list keeps its value across the writes. -/
theorem foldl_writeSlot_not_mem :
    ∀ (ws : List (Slot × String)) (cfg : List LayersEntry) (s : Slot),
      s ∉ ws.map Prod.fst →
      readSlot (ws.foldl (fun c p => writeSlot c p.1 p.2) cfg) s = readSlot cfg s := by
  intro ws
  induction ws with
  | nil => intro cfg s _; rfl
  | cons w rest ih =>
      intro cfg s h
      have h1 : s ≠ w.1 ∧ s ∉ rest.map Prod.fst := by
        rw [List.map_cons, List.mem_cons] at h
        push_neg at h
        exact h
      rw [List.foldl_cons, ih _ _ h1.2, writeSlot_ne h1.1 w.2]

/-- A valid slot written exactly once by a write list reads back its ARN
after all the writes. -/
theorem foldl_writeSlot_mem :
    ∀ (ws : List (Slot × String)) (cfg : List LayersEntry) {s : Slot} {a : String},
      (s, a) ∈ ws → (ws.map Prod.fst).Nodup →
      (∃ xs, cfg[s.outer]? = some (.arr xs) ∧ s.inner < xs.length) →
      readSlot (ws.foldl (fun c p => writeSlot c p.1 p.2) cfg) s = some (.vStr a) := by
  intro ws
  induction ws with
  | nil => intro cfg s a h _ _; simp at h
  | cons w rest ih =>
      intro cfg s a h hd hv
      rw [List.map_cons, List.nodup_cons] at hd
      rw [List.foldl_cons]
      rcases List.mem_cons.mp h with h | h
      · subst h
        obtain ⟨xs, hc, hi⟩ := hv
        rw [foldl_writeSlot_not_mem rest _ s hd.1, writeSlot_hit hc hi a]
      · obtain ⟨xs, hc, hi⟩ := hv
        exact ih _ h hd.2 (writeSlot_preserves_valid w.1 w.2 hc hi)

/-! ## Coordinator lemmas -/

theorem groupWrites_nil (pf : String → List Page) : groupWrites pf [] = [] := rfl

theorem groupWrites_cons (pf : String → List Page) (g : String × List Slot)
    (rest : List (String × List Slot)) :
    groupWrites pf (g :: rest) =
      (match (processLayers g.1 (pf g.1)).1 with
        | .ok arn => g.2.map (fun s => (s, arn))
        | .error _ => []) ++ groupWrites pf rest := by
  rw [groupWrites, List.map_cons, List.flatten_cons]
  rfl

/-- A write is recorded exactly for the slots of groups whose resolution
succeeded, carrying the group's resolved ARN. -/
theorem mem_groupWrites {pf : String → List Page} :
    ∀ {assoc : List (String × List Slot)} {s : Slot} {a : String},
      (s, a) ∈ groupWrites pf assoc ↔
        ∃ n ss, (n, ss) ∈ assoc ∧ s ∈ ss ∧ (processLayers n (pf n)).1 = .ok a := by
  intro assoc
  induction assoc with
  | nil =>
      intro s a
      rw [groupWrites_nil]
      simp
  | cons g rest ih =>
      intro s a
      rw [groupWrites_cons, List.mem_append, ih]
      constructor
      · rintro (h | ⟨n, ss, hg, hs, hr⟩)
        · cases hr : (processLayers g.1 (pf g.1)).1 with
          | error e => rw [hr] at h; simp at h
          | ok arn =>
              rw [hr] at h
              obtain ⟨t, ht, he⟩ := List.mem_map.mp h
              rw [Prod.mk.injEq] at he
              refine ⟨g.1, g.2, ?_, ?_, ?_⟩
              · rw [← Prod.mk.eta (p := g)] at *
                exact List.mem_cons_self _ _
              · rw [← he.1]
                exact ht
              · rw [hr, he.2]
        · exact ⟨n, ss, List.mem_cons_of_mem _ hg, hs, hr⟩
      · rintro ⟨n, ss, hg, hs, hr⟩
        rcases List.mem_cons.mp hg with hg | hg
        · left
          rw [← hg]
          dsimp only
          rw [hr]
          exact List.mem_map.mpr ⟨s, hs, rfl⟩
        · right
          exact ⟨n, ss, hg, hs, hr⟩

/-- Distinct groups with distinct, pairwise-disjoint slot lists produce a
write list that touches every slot at most once. -/
theorem nodup_fst_groupWrites {pf : String → List Page} :
    ∀ {assoc : List (String × List Slot)},
      (∀ g ∈ assoc, (g.2 : List Slot).Nodup) →
      (∀ g q, g ∈ assoc → q ∈ assoc → g.1 ≠ q.1 → ∀ s ∈ g.2, s ∉ q.2) →
      (assoc.map Prod.fst).Nodup →
      ((groupWrites pf assoc).map Prod.fst).Nodup := by
  intro assoc
  induction assoc with
  | nil => intro _ _ _; rw [groupWrites_nil]; simp
  | cons g rest ih =>
      intro h1 h2 hk
      rw [List.map_cons, List.nodup_cons] at hk
      rw [groupWrites_cons, List.map_append]
      apply List.Nodup.append
      · cases hr : (processLayers g.1 (pf g.1)).1 with
        | error e => simp
        | ok arn =>
            dsimp only
            rw [List.map_map]
            have hcomp : (Prod.fst ∘ fun s : Slot => (s, arn)) = id := rfl
            rw [hcomp, List.map_id]
            exact h1 g (List.mem_cons_self _ _)
      · exact ih (fun q hq => h1 q (List.mem_cons_of_mem _ hq))
          (fun q q' hq hq' => h2 q q' (List.mem_cons_of_mem _ hq) (List.mem_cons_of_mem _ hq'))
          hk.2
      · intro s hs hs'
        obtain ⟨w', hw', hwe'⟩ := List.mem_map.mp hs'
        obtain ⟨n, ss, hg', hsw, _⟩ := mem_groupWrites.mp (by
          rw [← Prod.mk.eta (p := w')] at hw'
          exact hw')
        have hsg : s ∈ g.2 := by
          cases hr : (processLayers g.1 (pf g.1)).1 with
          | error e => rw [hr] at hs; simp at hs
          | ok arn =>
              rw [hr] at hs
              obtain ⟨t, ht, hte⟩ := List.mem_map.mp hs
              obtain ⟨t', ht', hte'⟩ := List.mem_map.mp ht
              rw [← hte, ← hte']
              exact ht'
        have hne : g.1 ≠ n := by
          intro he
          apply hk.1
          rw [he]
          exact List.mem_map.mpr ⟨(n, ss), hg', rfl⟩
        apply h2 g (n, ss) (List.mem_cons_self _ _) (List.mem_cons_of_mem _ hg') hne s hsg
        rw [hwe'] at hsw
        exact hsw

/-- A failing group contributes its error message to the task errors. -/
theorem mem_groupErrors_of {pf : String → List Page} {assoc : List (String × List Slot)}
    {n : String} {ss : List Slot} {e : String} (h : (n, ss) ∈ assoc)
    (hr : (processLayers n (pf n)).1 = .error e) : e ∈ groupErrors pf assoc := by
  rw [groupErrors, List.mem_filterMap]
  refine ⟨(n, ss), h, ?_⟩
  dsimp only
  rw [hr]

theorem update_config_eq (amb : String) (pf : String → List Page) (cfg : List LayersEntry) :
    (update amb pf cfg).config =
      (groupWrites pf (layerAssociation amb cfg)).foldl (fun c p => writeSlot c p.1 p.2) cfg :=
  rfl

theorem update_queried_eq (amb : String) (pf : String → List Page) (cfg : List LayersEntry) :
    (update amb pf cfg).queried = (layerAssociation amb cfg).map Prod.fst :=
  rfl

theorem update_writes_eq (amb : String) (pf : String → List Page) (cfg : List LayersEntry) :
    (update amb pf cfg).writes = groupWrites pf (layerAssociation amb cfg) :=
  rfl

theorem update_errors_eq (amb : String) (pf : String → List Page) (cfg : List LayersEntry) :
    (update amb pf cfg).errors = groupErrors pf (layerAssociation amb cfg) :=
  rfl

/-- When no pending name collides with an `Object.prototype` property, the
grouping loop never throws and builds exactly the association of the
own-key model. -/
theorem buildAssocJS_safe :
    ∀ (l : List (Slot × String)) (assoc : List (String × List Slot)),
      (∀ p ∈ l, p.2 ∉ protoKeys) →
      buildAssocJS l assoc = some (l.foldl (fun a p => addSlot a p.2 p.1) assoc) := by
  intro l
  induction l with
  | nil => intro assoc _; rfl
  | cons p rest ih =>
      intro assoc h
      have hp : p.2 ∉ protoKeys := h p (List.mem_cons_self _ _)
      have haddJS : addSlotJS assoc p.2 p.1 = some (addSlot assoc p.2 p.1) := by
        rw [addSlotJS]
        by_cases hm : p.2 ∈ assoc.map Prod.fst
        · rw [if_pos hm]
        · rw [if_neg hm, if_neg hp]
      have he : buildAssocJS (p :: rest) assoc =
          match addSlotJS assoc p.2 p.1 with
          | none => none
          | some a => buildAssocJS rest a := rfl
      rw [he, haddJS]
      exact ih _ (fun q hq => h q (List.mem_cons_of_mem _ hq))

/-- On configurations none of whose eligible targets collides with an
`Object.prototype` property name, the faithful semantics and the own-key
model coincide. -/
theorem updateJS_eq_update {amb : String} {pf : String → List Page}
    {cfg : List LayersEntry}
    (hsafe : ∀ p ∈ eligibleSlots amb cfg, p.2 ∉ protoKeys) :
    updateJS amb pf cfg = update amb pf cfg := by
  unfold updateJS
  rw [buildAssocJS_safe _ _ hsafe]
  rfl

/-- The write list of an `update` run touches each slot at most once. -/
theorem nodup_fst_update_writes (amb : String) (pf : String → List Page)
    (cfg : List LayersEntry) : (((update amb pf cfg).writes).map Prod.fst).Nodup := by
  rw [update_writes_eq]
  apply nodup_fst_groupWrites
  · intro g hg
    rw [← Prod.mk.eta (p := g)] at hg
    exact nodup_mem_layerAssociation hg
  · intro g q hg hq hne
    rw [← Prod.mk.eta (p := g)] at hg
    rw [← Prod.mk.eta (p := q)] at hq
    exact disjoint_layerAssociation hg hq hne
  · exact layerAssociation_keys_nodup amb cfg

/-- Every recorded write lands: after `update`, the written slot reads back
the written ARN. -/
theorem update_read_written {amb : String} {pf : String → List Page} {cfg : List LayersEntry}
    {s : Slot} {a : String} (h : (s, a) ∈ (update amb pf cfg).writes) :
    readSlot (update amb pf cfg).config s = some (.vStr a) := by
  rw [update_writes_eq] at h
  have hval : ∃ xs, cfg[s.outer]? = some (.arr xs) ∧ s.inner < xs.length := by
    obtain ⟨n, ss, hg, hs, _⟩ := mem_groupWrites.mp h
    have hel : (s, n) ∈ eligibleSlots amb cfg := by
      have := mem_layerAssociation hg
      rw [this] at hs
      exact mem_targetSlots.mp hs
    exact eligibleSlots_valid hel
  rw [update_config_eq]
  have hnd := nodup_fst_update_writes amb pf cfg
  rw [update_writes_eq] at hnd
  exact foldl_writeSlot_mem _ cfg h hnd hval

/-- A slot no successful group claims is untouched by `update`. -/
theorem update_read_unwritten {amb : String} {pf : String → List Page} {cfg : List LayersEntry}
    {s : Slot} (h : s ∉ ((update amb pf cfg).writes).map Prod.fst) :
    readSlot (update amb pf cfg).config s = readSlot cfg s := by
  rw [update_writes_eq] at h
  rw [update_config_eq]
  exact foldl_writeSlot_not_mem _ cfg s h

/-! ## Claims -/

/-- C2: for every string matching the fixed layer pattern, the Matcher derives
the ResolutionTarget as follows: if the `accountId` component is the
placeholder `?`, the target is the bare `layerName`; otherwise the target is
the rebuilt fully-qualified string
`arn:aws:lambda:<region>:<accountId>:layer:<layerName>` with the version
suffix dropped, where `<region>` is the ambient deployment region when the
parsed region is `?` and the parsed region otherwise. -/
theorem claim2_canonical_target (amb s : String) (g : RegGroups) (h : regExec s = some g) :
    (extractLayerName amb (.vStr s)).1 =
      some (if g.accountId = "?" then g.layerName
        else "arn:aws:lambda:" ++ (if g.region = "?" then amb else g.region) ++ ":" ++
          g.accountId ++ ":layer:" ++ g.layerName) := by
  rw [extractLayerName_matched amb h]
  rfl

theorem claim2_witness :
    regExec "arn:aws:lambda:?:123:layer:foo:serverless-latest-layer-version" =
      some ⟨"?", "123", "foo", none⟩ ∧
    (extractLayerName "us-east-1"
        (.vStr "arn:aws:lambda:?:123:layer:foo:serverless-latest-layer-version")).1 =
      some "arn:aws:lambda:us-east-1:123:layer:foo" := by
  refine ⟨by decide, ?_⟩
  rw [claim2_canonical_target "us-east-1"
    "arn:aws:lambda:?:123:layer:foo:serverless-latest-layer-version"
    ⟨"?", "123", "foo", none⟩ (by decide)]
  decide

/-- C3 counterexample: two records share the maximum `Version`; the claim
says the first-seen record (`"A"`) is kept, but the code returns the
last-seen record (`"B"`), because line 90 only skips the new record when the
current best is strictly greater, so a tie overwrites the current best. -/
theorem claim3_counterexample :
    (processLayers "foo" [⟨[⟨5, "A"⟩, ⟨5, "B"⟩], none⟩]).1 = .ok "B" ∧
    (processLayers "foo" [⟨[⟨5, "A"⟩, ⟨5, "B"⟩], none⟩]).1 ≠ .ok "A" := by
  decide

/-- C3 (amended): for every well-formed sequence of pages of version records,
the Resolver returns a record attaining the maximum `Version` across all
pages, and when several records share that maximum the LAST-seen record is
kept — a later record overrides the current best whenever its `Version` is
greater than or equal to the current best's: every record strictly after the
returned one is strictly smaller. -/
theorem claim3_max_last_seen (name : String) (pages : List Page)
    (h : goodChain pages = true) (hne : allVersions pages ≠ []) :
    ∃ r, lastArgmax (allVersions pages) = some r ∧
      (pageLoop pages none).1 = some r ∧
      (processLayers name pages).1 = .ok r.LayerVersionArn ∧
      r ∈ allVersions pages ∧
      (∀ v ∈ allVersions pages, v.Version ≤ r.Version) ∧
      ∃ k, ∃ hk : k < (allVersions pages).length, (allVersions pages).get ⟨k, hk⟩ = r ∧
        ∀ j, ∀ hj : j < (allVersions pages).length, k < j →
          ((allVersions pages).get ⟨j, hj⟩).Version < r.Version := by
  have hl := pageLoop_goodChain h none
  have hfold : (pageLoop pages none).1 = lastArgmax (allVersions pages) := by
    rw [hl]
    dsimp only
    rw [foldVersions_eq_mergeBest]
    rfl
  cases hx : lastArgmax (allVersions pages) with
  | none => exact absurd (lastArgmax_eq_none.mp hx) hne
  | some r =>
      refine ⟨r, rfl, ?_, ?_, lastArgmax_mem hx, lastArgmax_ub hx, lastArgmax_strict_after hx⟩
      · rw [hfold, hx]
      · simp only [processLayers, hfold.trans hx]

theorem claim3_witness :
    ∃ r, lastArgmax (allVersions [⟨[⟨1, "x"⟩, ⟨5, "y"⟩], some "m"⟩, ⟨[⟨5, "z"⟩], none⟩]) =
        some r ∧
      (pageLoop [⟨[⟨1, "x"⟩, ⟨5, "y"⟩], some "m"⟩, ⟨[⟨5, "z"⟩], none⟩] none).1 = some r ∧
      (processLayers "foo" [⟨[⟨1, "x"⟩, ⟨5, "y"⟩], some "m"⟩, ⟨[⟨5, "z"⟩], none⟩]).1 =
        .ok r.LayerVersionArn ∧
      r ∈ allVersions [⟨[⟨1, "x"⟩, ⟨5, "y"⟩], some "m"⟩, ⟨[⟨5, "z"⟩], none⟩] ∧
      (∀ v ∈ allVersions [⟨[⟨1, "x"⟩, ⟨5, "y"⟩], some "m"⟩, ⟨[⟨5, "z"⟩], none⟩],
        v.Version ≤ r.Version) ∧
      ∃ k, ∃ hk : k <
          (allVersions [⟨[⟨1, "x"⟩, ⟨5, "y"⟩], some "m"⟩, ⟨[⟨5, "z"⟩], none⟩]).length,
        (allVersions [⟨[⟨1, "x"⟩, ⟨5, "y"⟩], some "m"⟩, ⟨[⟨5, "z"⟩], none⟩]).get ⟨k, hk⟩ = r ∧
        ∀ j, ∀ hj : j <
            (allVersions [⟨[⟨1, "x"⟩, ⟨5, "y"⟩], some "m"⟩, ⟨[⟨5, "z"⟩], none⟩]).length,
          k < j →
          ((allVersions [⟨[⟨1, "x"⟩, ⟨5, "y"⟩], some "m"⟩, ⟨[⟨5, "z"⟩], none⟩]).get
            ⟨j, hj⟩).Version < r.Version :=
  claim3_max_last_seen "foo" [⟨[⟨1, "x"⟩, ⟨5, "y"⟩], some "m"⟩, ⟨[⟨5, "z"⟩], none⟩]
    (by decide) (by decide)

/-- C4: for every resource name whose paginated query yields N pages, each
returning a (truthy) continuation marker except the last, the Resolver issues
exactly N query calls and terminates; moreover the loop issues a further call
after a page exactly when that page returned a truthy continuation marker. -/
theorem claim4_pagination_calls (name : String) (pages : List Page)
    (h : goodChain pages = true) :
    (processLayers name pages).2 = pages.length ∧
    (∀ (p : Page) (rest : List Page) (c : Option VersionRecord),
      truthyMarker p.NextMarker = true →
        (pageLoop (p :: rest) c).2 = (pageLoop rest (foldVersions c p.LayerVersions)).2 + 1) ∧
    (∀ (p : Page) (rest : List Page) (c : Option VersionRecord),
      truthyMarker p.NextMarker = false → (pageLoop (p :: rest) c).2 = 1) := by
  refine ⟨?_, ?_, ?_⟩
  · have hl := pageLoop_goodChain h none
    have h2 : (pageLoop pages none).2 = pages.length := by rw [hl]
    simp only [processLayers]
    cases hx : (pageLoop pages none).1 <;> simp only [hx] <;> rw [← h2]
  · intro p rest c hm
    rw [pageLoop_cons_truthy hm]
  · intro p rest c hm
    rw [pageLoop_cons_falsy hm]

theorem claim4_witness :
    (processLayers "foo"
      [⟨[⟨1, "x"⟩], some "m1"⟩, ⟨[], some "m2"⟩, ⟨[⟨3, "z"⟩], none⟩]).2 = 3 :=
  (claim4_pagination_calls "foo"
    [⟨[⟨1, "x"⟩], some "m1"⟩, ⟨[], some "m2"⟩, ⟨[⟨3, "z"⟩], none⟩] (by decide)).1

/-- C9: every string accepted by the fixed pattern carries exactly the
sentinel literal `serverless-latest-layer-version` as its version component
(its last colon-separated component), the regular expression defines no
`layerVersion` group so the destructured value is `undefined` and the test
`layerVersion === parseInt(layerVersion)` that skips explicitly versioned
references can never succeed, and `extractLayerName` returns a resolution
target for every matched string: a matched reference is always eligible. -/
theorem claim9_matched_always_eligible (amb s : String) (g : RegGroups)
    (h : regExec s = some g) :
    (splitColons s).getLast? = some versionSentinel ∧
    g.layerVersion = none ∧
    versionIsExplicitNumber g.layerVersion = false ∧
    ((extractLayerName amb (.vStr s)).1).isSome = true := by
  obtain ⟨hsplit, _, _, _, hv⟩ := regExec_eq_some h
  refine ⟨?_, hv, rfl, ?_⟩
  · rw [hsplit]
    rfl
  · rw [extractLayerName_matched amb h]
    rfl

theorem claim9_witness :
    regExec "arn:aws:lambda:us-east-1:?:layer:bar:serverless-latest-layer-version" =
      some ⟨"us-east-1", "?", "bar", none⟩ ∧
    (splitColons "arn:aws:lambda:us-east-1:?:layer:bar:serverless-latest-layer-version").getLast? =
      some versionSentinel ∧
    ((extractLayerName "r"
      (.vStr "arn:aws:lambda:us-east-1:?:layer:bar:serverless-latest-layer-version")).1).isSome =
      true := by
  have h := claim9_matched_always_eligible "r"
    "arn:aws:lambda:us-east-1:?:layer:bar:serverless-latest-layer-version"
    ⟨"us-east-1", "?", "bar", none⟩ (by decide)
  exact ⟨by decide, h.1, h.2.2.2⟩

/-- C10: the empty string, and every falsy reference value (`null`,
`undefined`, `false`, `0`), makes `extractLayerName` return not-eligible
without raising and without writing anything to the debug sink — even though
the empty string is a string. -/
theorem claim10_falsy_silent (amb : String) :
    extractLayerName amb (.vStr "") = (none, []) ∧
    extractLayerName amb .vNull = (none, []) ∧
    extractLayerName amb .vUndefined = (none, []) ∧
    extractLayerName amb (.vBool false) = (none, []) ∧
    extractLayerName amb (.vNum 0) = (none, []) := by
  refine ⟨?_, rfl, rfl, ?_, ?_⟩ <;> simp [extractLayerName, isFalsy]

/-- C1 counterexample: a configuration whose only eligible reference
canonicalizes to the bare name `toString`.  The property read
`layerAssociation["toString"]` hits `Object.prototype.toString`, which is
truthy, so `listeners.push(listener)` throws a TypeError inside the grouping
loop, before any query: zero paginated query sequences are issued for an
eligible target — not exactly one — and its slot is never overwritten. -/
theorem claim1_counterexample :
    ((⟨0, 0⟩ : Slot), "toString") ∈ eligibleSlots "r"
      [.arr [.vStr "arn:aws:lambda:?:?:layer:toString:serverless-latest-layer-version"]] ∧
    (updateJS "r" (fun _ => [⟨[⟨1, "A1"⟩], none⟩])
      [.arr [.vStr "arn:aws:lambda:?:?:layer:toString:serverless-latest-layer-version"]]) =
    { config := [.arr [.vStr "arn:aws:lambda:?:?:layer:toString:serverless-latest-layer-version"]]
      queried := []
      writes := []
      errors := ["TypeError: listeners.push is not a function"] } := by
  decide

/-- C1 (amended): for every configuration input none of whose eligible
references canonicalizes to an own-property name of `Object.prototype`
(`toString`, `valueOf`, `__proto__`, …), the faithful semantics agrees with
the own-key model, all eligible references canonicalizing to the same target
cause exactly one paginated query sequence for that target (the queried list
is exactly the distinct targets, without duplicates), and after a successful
resolution every slot of that target's group has been overwritten with the
identical resolved ARN, each slot written exactly once (the write trace
touches every slot at most once and records each group slot's write). -/
theorem claim1_amended_dedup_and_uniform_writes (amb : String) (pf : String → List Page)
    (cfg : List LayersEntry)
    (hsafe : ∀ p ∈ eligibleSlots amb cfg, p.2 ∉ protoKeys) :
    updateJS amb pf cfg = update amb pf cfg ∧
    (update amb pf cfg).queried.Nodup ∧
    (∀ n, n ∈ (update amb pf cfg).queried ↔ ∃ s, (s, n) ∈ eligibleSlots amb cfg) ∧
    (((update amb pf cfg).writes).map Prod.fst).Nodup ∧
    (∀ n ss, (n, ss) ∈ layerAssociation amb cfg →
      ∀ arn, (processLayers n (pf n)).1 = .ok arn →
        ∀ s ∈ ss, (s, arn) ∈ (update amb pf cfg).writes ∧
          readSlot (update amb pf cfg).config s = some (.vStr arn)) := by
  refine ⟨updateJS_eq_update hsafe, ?_, ?_, nodup_fst_update_writes amb pf cfg, ?_⟩
  · rw [update_queried_eq]
    exact layerAssociation_keys_nodup amb cfg
  · intro n
    rw [update_queried_eq]
    exact mem_keys_layerAssociation
  · intro n ss hg arn hr s hs
    have hw : (s, arn) ∈ (update amb pf cfg).writes := by
      rw [update_writes_eq, mem_groupWrites]
      exact ⟨n, ss, hg, hs, hr⟩
    exact ⟨hw, update_read_written hw⟩

theorem claim1_amended_witness :
    updateJS "r" (fun _ => [⟨[⟨1, "A1"⟩, ⟨2, "A2"⟩], none⟩])
      [.arr [.vStr "arn:aws:lambda:?:?:layer:foo:serverless-latest-layer-version",
             .vStr "arn:aws:lambda:?:?:layer:foo:serverless-latest-layer-version"],
       .notArr .vNull,
       .arr [.vStr "arn:aws:lambda:?:?:layer:foo:serverless-latest-layer-version"]] =
    update "r" (fun _ => [⟨[⟨1, "A1"⟩, ⟨2, "A2"⟩], none⟩])
      [.arr [.vStr "arn:aws:lambda:?:?:layer:foo:serverless-latest-layer-version",
             .vStr "arn:aws:lambda:?:?:layer:foo:serverless-latest-layer-version"],
       .notArr .vNull,
       .arr [.vStr "arn:aws:lambda:?:?:layer:foo:serverless-latest-layer-version"]] ∧
    readSlot (update "r" (fun _ => [⟨[⟨1, "A1"⟩, ⟨2, "A2"⟩], none⟩])
      [.arr [.vStr "arn:aws:lambda:?:?:layer:foo:serverless-latest-layer-version",
             .vStr "arn:aws:lambda:?:?:layer:foo:serverless-latest-layer-version"],
       .notArr .vNull,
       .arr [.vStr "arn:aws:lambda:?:?:layer:foo:serverless-latest-layer-version"]]).config
      ⟨0, 1⟩ = some (.vStr "A2") := by
  refine ⟨(claim1_amended_dedup_and_uniform_writes "r"
      (fun _ => [⟨[⟨1, "A1"⟩, ⟨2, "A2"⟩], none⟩])
      [.arr [.vStr "arn:aws:lambda:?:?:layer:foo:serverless-latest-layer-version",
             .vStr "arn:aws:lambda:?:?:layer:foo:serverless-latest-layer-version"],
       .notArr .vNull,
       .arr [.vStr "arn:aws:lambda:?:?:layer:foo:serverless-latest-layer-version"]]
      (by decide)).1, ?_⟩
  exact ((claim1_amended_dedup_and_uniform_writes "r"
      (fun _ => [⟨[⟨1, "A1"⟩, ⟨2, "A2"⟩], none⟩])
      [.arr [.vStr "arn:aws:lambda:?:?:layer:foo:serverless-latest-layer-version",
             .vStr "arn:aws:lambda:?:?:layer:foo:serverless-latest-layer-version"],
       .notArr .vNull,
       .arr [.vStr "arn:aws:lambda:?:?:layer:foo:serverless-latest-layer-version"]]
      (by decide)).2.2.2.2
    "foo" [⟨0, 0⟩, ⟨0, 1⟩, ⟨2, 0⟩] (by decide) "A2" (by decide) ⟨0, 1⟩ (by decide)).2

/-- C5: for every resource name in the association whose paginated query
returns zero versions across all pages, the Resolver fails with the error
message naming that resource, and no slot belonging to that target is
mutated by the update run. -/
theorem claim5_no_version_error (amb : String) (pf : String → List Page)
    (cfg : List LayersEntry) (n : String) (ss : List Slot)
    (hmem : (n, ss) ∈ layerAssociation amb cfg)
    (hempty : ∀ p ∈ pf n, p.LayerVersions = []) :
    (processLayers n (pf n)).1 =
      .error ("Lambda layer " ++ n ++ " has no version available.") ∧
    ∀ s ∈ ss, readSlot (update amb pf cfg).config s = readSlot cfg s := by
  have hres : (pageLoop (pf n) none).1 = none := pageLoop_empty_versions hempty none
  have herr : (processLayers n (pf n)).1 =
      .error ("Lambda layer " ++ n ++ " has no version available.") := by
    simp only [processLayers, hres]
  refine ⟨herr, ?_⟩
  intro s hs
  apply update_read_unwritten
  rw [update_writes_eq]
  intro hmm
  obtain ⟨w, hw, hwe⟩ := List.mem_map.mp hmm
  obtain ⟨m, tt, hgm, hsw, hok⟩ := mem_groupWrites.mp (by
    rw [← Prod.mk.eta (p := w)] at hw
    exact hw)
  rw [hwe] at hsw
  by_cases he : m = n
  · subst he
    rw [herr] at hok
    cases hok
  · exact disjoint_layerAssociation hgm hmem he s hsw hs

theorem claim5_witness :
    (processLayers "foo" ((fun _ : String => [⟨[], some "m"⟩, ⟨[], none⟩]) "foo")).1 =
      .error ("Lambda layer " ++ "foo" ++ " has no version available.") ∧
    ∀ s ∈ [(⟨0, 0⟩ : Slot)],
      readSlot (update "r" (fun _ => [⟨[], some "m"⟩, ⟨[], none⟩])
        [.arr [.vStr "arn:aws:lambda:?:?:layer:foo:serverless-latest-layer-version"]]).config s =
      readSlot [.arr [.vStr "arn:aws:lambda:?:?:layer:foo:serverless-latest-layer-version"]] s :=
  claim5_no_version_error "r" (fun _ => [⟨[], some "m"⟩, ⟨[], none⟩])
    [.arr [.vStr "arn:aws:lambda:?:?:layer:foo:serverless-latest-layer-version"]]
    "foo" [⟨0, 0⟩] (by decide) (by decide)

/-- C6 counterexample: two distinct targets, `foo` (whose resolution would
succeed with ARN `A1`) and `toString` (whose query would return zero
versions and fail).  The claim predicts the overall operation fails with
`foo`'s slot mutated to `A1` and `toString`'s slot unchanged; but the
grouping loop throws a TypeError on `toString`'s prototype-chain hit before
any query, so `foo`'s slot is NOT mutated to the resolved ARN. -/
theorem claim6_counterexample :
    (processLayers "foo"
      ((fun n => if n = "foo" then [⟨[⟨1, "A1"⟩], none⟩] else [⟨[], none⟩]) "foo")).1 =
      .ok "A1" ∧
    (processLayers "toString"
      ((fun n => if n = "foo" then [⟨[⟨1, "A1"⟩], none⟩] else [⟨[], none⟩]) "toString")).1 =
      .error ("Lambda layer " ++ "toString" ++ " has no version available.") ∧
    readSlot (updateJS "r"
      (fun n => if n = "foo" then [⟨[⟨1, "A1"⟩], none⟩] else [⟨[], none⟩])
      [.arr [.vStr "arn:aws:lambda:?:?:layer:foo:serverless-latest-layer-version",
             .vStr "arn:aws:lambda:?:?:layer:toString:serverless-latest-layer-version"]]).config
      ⟨0, 0⟩ =
      some (.vStr "arn:aws:lambda:?:?:layer:foo:serverless-latest-layer-version") ∧
    readSlot (updateJS "r"
      (fun n => if n = "foo" then [⟨[⟨1, "A1"⟩], none⟩] else [⟨[], none⟩])
      [.arr [.vStr "arn:aws:lambda:?:?:layer:foo:serverless-latest-layer-version",
             .vStr "arn:aws:lambda:?:?:layer:toString:serverless-latest-layer-version"]]).config
      ⟨0, 0⟩ ≠ some (.vStr "A1") := by
  decide

/-- C6 (amended): given two distinct targets in the association where one
resolves successfully and the other fails, on a configuration none of whose
eligible targets collides with an own-property name of `Object.prototype`,
the faithful semantics agrees with the own-key model, the overall update
fails (its task error list is nonempty), the successful target's slots all
read back the resolved ARN, and the failing target's slots are left
unchanged — completed mutations are not rolled back. -/
theorem claim6_amended_partial_application (amb : String) (pf : String → List Page)
    (cfg : List LayersEntry) (nA nB : String) (ssA ssB : List Slot) (arn e : String)
    (hsafe : ∀ p ∈ eligibleSlots amb cfg, p.2 ∉ protoKeys)
    (hne : nA ≠ nB)
    (hA : (nA, ssA) ∈ layerAssociation amb cfg)
    (hB : (nB, ssB) ∈ layerAssociation amb cfg)
    (hok : (processLayers nA (pf nA)).1 = .ok arn)
    (herr : (processLayers nB (pf nB)).1 = .error e) :
    updateJS amb pf cfg = update amb pf cfg ∧
    (update amb pf cfg).errors ≠ [] ∧
    (∀ s ∈ ssA, readSlot (update amb pf cfg).config s = some (.vStr arn)) ∧
    (∀ s ∈ ssB, readSlot (update amb pf cfg).config s = readSlot cfg s) := by
  refine ⟨updateJS_eq_update hsafe, ?_, ?_, ?_⟩
  · rw [update_errors_eq]
    intro hnil
    have hm := mem_groupErrors_of hB herr
    rw [hnil] at hm
    simp at hm
  · intro s hs
    apply update_read_written
    rw [update_writes_eq, mem_groupWrites]
    exact ⟨nA, ssA, hA, hs, hok⟩
  · intro s hs
    apply update_read_unwritten
    rw [update_writes_eq]
    intro hmm
    obtain ⟨w, hw, hwe⟩ := List.mem_map.mp hmm
    obtain ⟨m, tt, hgm, hsw, hok2⟩ := mem_groupWrites.mp (by
      rw [← Prod.mk.eta (p := w)] at hw
      exact hw)
    rw [hwe] at hsw
    by_cases he : m = nB
    · subst he
      rw [herr] at hok2
      cases hok2
    · exact disjoint_layerAssociation hgm hB he s hsw hs

theorem claim6_amended_witness :
    updateJS "r"
      (fun n => if n = "foo" then [⟨[⟨1, "A1"⟩], none⟩] else [⟨[], none⟩])
      [.arr [.vStr "arn:aws:lambda:?:?:layer:foo:serverless-latest-layer-version",
             .vStr "arn:aws:lambda:?:?:layer:bar:serverless-latest-layer-version"]] =
    update "r"
      (fun n => if n = "foo" then [⟨[⟨1, "A1"⟩], none⟩] else [⟨[], none⟩])
      [.arr [.vStr "arn:aws:lambda:?:?:layer:foo:serverless-latest-layer-version",
             .vStr "arn:aws:lambda:?:?:layer:bar:serverless-latest-layer-version"]] ∧
    (update "r"
      (fun n => if n = "foo" then [⟨[⟨1, "A1"⟩], none⟩] else [⟨[], none⟩])
      [.arr [.vStr "arn:aws:lambda:?:?:layer:foo:serverless-latest-layer-version",
             .vStr "arn:aws:lambda:?:?:layer:bar:serverless-latest-layer-version"]]).errors ≠ [] ∧
    (∀ s ∈ [(⟨0, 0⟩ : Slot)],
      readSlot (update "r"
        (fun n => if n = "foo" then [⟨[⟨1, "A1"⟩], none⟩] else [⟨[], none⟩])
        [.arr [.vStr "arn:aws:lambda:?:?:layer:foo:serverless-latest-layer-version",
               .vStr "arn:aws:lambda:?:?:layer:bar:serverless-latest-layer-version"]]).config s =
        some (.vStr "A1")) ∧
    (∀ s ∈ [(⟨0, 1⟩ : Slot)],
      readSlot (update "r"
        (fun n => if n = "foo" then [⟨[⟨1, "A1"⟩], none⟩] else [⟨[], none⟩])
        [.arr [.vStr "arn:aws:lambda:?:?:layer:foo:serverless-latest-layer-version",
               .vStr "arn:aws:lambda:?:?:layer:bar:serverless-latest-layer-version"]]).config s =
        readSlot [.arr [.vStr "arn:aws:lambda:?:?:layer:foo:serverless-latest-layer-version",
               .vStr "arn:aws:lambda:?:?:layer:bar:serverless-latest-layer-version"]] s) :=
  claim6_amended_partial_application "r"
    (fun n => if n = "foo" then [⟨[⟨1, "A1"⟩], none⟩] else [⟨[], none⟩])
    [.arr [.vStr "arn:aws:lambda:?:?:layer:foo:serverless-latest-layer-version",
           .vStr "arn:aws:lambda:?:?:layer:bar:serverless-latest-layer-version"]]
    "foo" "bar" [⟨0, 0⟩] [⟨0, 1⟩] "A1"
    ("Lambda layer " ++ "bar" ++ " has no version available.")
    (by decide) (by decide) (by decide) (by decide) (by decide) (by decide)

/-- C7: every slot value that is not a string, or is a string not matching
the fixed structural pattern, or encodes an explicit numeric version in place
of the placeholder marker, is not eligible (the Matcher totally returns
`none`, raising nothing), and that slot is left byte-for-byte unchanged by a
whole update pass. -/
theorem claim7_ineligible_untouched (amb : String) (pf : String → List Page)
    (cfg : List LayersEntry) (o i : Nat) (v : JVal)
    (hv : readSlot cfg ⟨o, i⟩ = some v)
    (h : isStringVal v = false ∨ (∃ s, v = .vStr s ∧ regExec s = none) ∨
      (∃ s, v = .vStr s ∧ hasExplicitNumericVersion s)) :
    (extractLayerName amb v).1 = none ∧
    readSlot (update amb pf cfg).config ⟨o, i⟩ = some v := by
  have hnone : (extractLayerName amb v).1 = none := by
    rcases h with h | ⟨s, he, hre⟩ | ⟨s, he, hnum⟩
    · cases v with
      | vStr s => simp [isStringVal] at h
      | vNum n => by_cases hz : n = 0 <;> simp [extractLayerName, isFalsy, hz]
      | vBool b => cases b <;> simp [extractLayerName, isFalsy]
      | vNull => simp [extractLayerName, isFalsy]
      | vUndefined => simp [extractLayerName, isFalsy]
      | vObj id => simp [extractLayerName, isFalsy]
    · subst he
      by_cases hs0 : s = ""
      · subst hs0
        simp [extractLayerName, isFalsy]
      · simp [extractLayerName, isFalsy, hs0, hre]
    · subst he
      have hre : regExec s = none := regExec_numeric_eq_none hnum
      by_cases hs0 : s = ""
      · subst hs0
        simp [extractLayerName, isFalsy]
      · simp [extractLayerName, isFalsy, hs0, hre]
  refine ⟨hnone, ?_⟩
  rw [← hv]
  apply update_read_unwritten
  rw [update_writes_eq]
  intro hmm
  obtain ⟨w, hw, hwe⟩ := List.mem_map.mp hmm
  obtain ⟨m, tt, hgm, hsw, _⟩ := mem_groupWrites.mp (by
    rw [← Prod.mk.eta (p := w)] at hw
    exact hw)
  rw [hwe] at hsw
  have hel : ((⟨o, i⟩ : Slot), m) ∈ eligibleSlots amb cfg := by
    rw [mem_layerAssociation hgm] at hsw
    exact mem_targetSlots.mp hsw
  obtain ⟨v', hv', hx⟩ := eligibleSlots_readSlot hel
  rw [hv] at hv'
  injection hv' with hv'
  rw [← hv'] at hx
  rw [hnone] at hx
  cases hx

theorem claim7_witness :
    (extractLayerName "r" (.vStr "arn:aws:lambda:us-east-1:123:layer:foo:4")).1 = none ∧
    readSlot (update "r" (fun _ => [⟨[⟨1, "A1"⟩], none⟩])
      [.arr [.vStr "arn:aws:lambda:us-east-1:123:layer:foo:4"]]).config ⟨0, 0⟩ =
      some (.vStr "arn:aws:lambda:us-east-1:123:layer:foo:4") :=
  claim7_ineligible_untouched "r" (fun _ => [⟨[⟨1, "A1"⟩], none⟩])
    [.arr [.vStr "arn:aws:lambda:us-east-1:123:layer:foo:4"]] 0 0
    (.vStr "arn:aws:lambda:us-east-1:123:layer:foo:4") (by decide)
    (Or.inr (Or.inr ⟨"arn:aws:lambda:us-east-1:123:layer:foo:4",
      rfl, "us-east-1", "123", "foo", "4", by decide, by decide, by decide⟩))

/-- C8: a configuration with zero eligible slots — including entries whose
layers field is absent, null or a non-array value, which the entry scan skips
entirely — makes `update` complete successfully, issue no queries, record no
writes and leave the configuration unchanged. -/
theorem claim8_no_eligible_noop (amb : String) (pf : String → List Page)
    (cfg : List LayersEntry) (o : Nat) (v : JVal) (rest : List LayersEntry)
    (h : eligibleSlots amb cfg = []) :
    update amb pf cfg = ⟨cfg, [], [], []⟩ ∧
    eligibleSlotsAux amb o (.notArr v :: rest) = eligibleSlotsAux amb (o + 1) rest := by
  have hassoc : layerAssociation amb cfg = [] := by
    rw [layerAssociation, h]
    rfl
  constructor
  · rw [update]
    rw [hassoc]
    rfl
  · rfl

theorem claim8_witness :
    update "r" (fun _ => [⟨[⟨1, "A1"⟩], none⟩])
        [.notArr .vNull, .arr [.vStr "not-a-layer-arn", .vNum 7], .notArr (.vStr "oops")] =
      ⟨[.notArr .vNull, .arr [.vStr "not-a-layer-arn", .vNum 7], .notArr (.vStr "oops")],
        [], [], []⟩ ∧
    eligibleSlotsAux "r" 0 (.notArr .vNull :: [.arr []]) = eligibleSlotsAux "r" 1 [.arr []] :=
  claim8_no_eligible_noop "r" (fun _ => [⟨[⟨1, "A1"⟩], none⟩])
    [.notArr .vNull, .arr [.vStr "not-a-layer-arn", .vNum 7], .notArr (.vStr "oops")]
    0 .vNull [.arr []] (by decide)
